import Mathlib

/-!
Verification of the `e_commerce_forecast` feature pipeline
(`feature_pipeline/etl.py`, `feature_pipeline/validation.py`,
`feature_pipeline/pipeline.py`) against its natural-language
specification.

Shallow embedding conventions:
- A pandas timestamp (`invoice_date`, parsed with format `%m/%d/%Y %H:%M`)
  is a natural number of minutes since the Unix epoch; the calendar day of
  a timestamp is `t / 1440` (1440 minutes per day), matching
  `resample('D')`'s flooring of timestamps to midnight.
  Day 14975 is 2011-01-01.
- Prices are exact rationals `ℚ` standing for the float64 column.
- A float column cell that may be NaN is `Option ℚ` (`none` = NaN).
- `pandas.Series.quantile` (linear interpolation), `resample('D').sum()`
  (which fills empty bins with 0, `min_count=0`), `DataFrame.interpolate`
  (linear, forward direction) and `round` (half to even) are embedded
  from their library semantics.
-/

/-! ### Generic list helpers -/

/-- Worker for `firstSeen`: `seen` records the values already emitted. -/
def firstSeenAux {α : Type} [DecidableEq α] (seen : List α) : List α → List α
  | [] => []
  | a :: l => if a ∈ seen then firstSeenAux seen l else a :: firstSeenAux (a :: seen) l

/-- Distinct elements of a list in order of first appearance; this is the
order `pandas.Series.unique()` returns. -/
def firstSeen {α : Type} [DecidableEq α] (l : List α) : List α := firstSeenAux [] l

/-- Position of the first occurrence of `x` in `l` (length of `l` when
absent); the value a Python dict built by enumeration associates to a
key. -/
def firstIndexOf {α : Type} [DecidableEq α] : List α → α → ℕ
  | [], _ => 0
  | a :: l, x => if a = x then 0 else firstIndexOf l x + 1

/-! ### Numeric primitives from the pandas/numpy semantics -/

/-- Floor of a rational, computed through Euclidean division. -/
def qfloor (x : ℚ) : ℤ := Int.ediv x.num x.den

/-- Rounding half to even on rationals: the semantics of
`numpy.round` / `DataFrame.round()`. -/
def roundHalfEven (x : ℚ) : ℤ :=
  let f := qfloor x
  let frac := x - (f : ℚ)
  if frac < 1/2 then f
  else if 1/2 < frac then f + 1
  else if 2 ∣ f then f else f + 1

/-- Linear-interpolation quantile of a series, the default of
`pandas.Series.quantile`; `none` is the NaN returned on an empty series. -/
def quantile? (xs : List ℚ) (q : ℚ) : Option ℚ :=
  match xs with
  | [] => none
  | _ :: _ =>
    let s := List.insertionSort (fun a b : ℚ => a ≤ b) xs
    let h : ℚ := q * ((xs.length : ℚ) - 1)
    let i : ℕ := (qfloor h).toNat
    let g : ℚ := h - ((qfloor h : ℤ) : ℚ)
    some (s.getD i 0 + g * (s.getD (i + 1) (s.getD i 0) - s.getD i 0))

/-! ### Transform.iqr_outlier_removal (etl.py lines 162-184)

The function computes `q1, q3 = agg_data[agg_col].quantile([0.25, 0.75])`,
sets `lower_bound = q1 - 3 * iqr` and `upper_bound = q3 + 3 * iqr` with
`iqr = q3 - q1`, marks every value strictly outside the bounds as NaN and
drops the marked rows.  A series entry is a (timestamp, total_price) pair.
When the series is empty both quantiles are NaN, every comparison with NaN
is False, nothing is marked and nothing is dropped. -/

def iqr_outlier_removal (s : List (ℕ × ℚ)) : List (ℕ × ℚ) :=
  let vals := s.map Prod.snd
  match quantile? vals (1/4), quantile? vals (3/4) with
  | some q1, some q3 =>
    let iqr := q3 - q1
    let lower_bound := q1 - 3 * iqr
    let upper_bound := q3 + 3 * iqr
    let marked := s.map (fun p =>
      (p.1, if p.2 < lower_bound ∨ upper_bound < p.2 then (none : Option ℚ) else some p.2))
    marked.filterMap (fun p => p.2.map (fun v => (p.1, v)))
  | _, _ => s

/-! ### Data model

`Transform.rename_columns` drops StockCode, Description, CustomerID and
Quantity and renames InvoiceNo to invoice_id, InvoiceDate to invoice_date,
UnitPrice to total_price and Country to country; `Transform.cast_columns`
parses invoice_date with format `%m/%d/%Y %H:%M`, so the column keeps its
time-of-day component.  A post-rename-and-cast record is a `Row`;
the country column is a `String` before encoding and an `ℤ` (the int8
code) after. -/

structure Row (γ : Type) where
  invoice_id : String
  invoice_date : ℕ
  total_price : ℚ
  country : γ
deriving DecidableEq

/-- A row of one per-country aggregate before the id column is added. -/
structure AggRow where
  invoice_date : ℕ
  country : ℤ
  total_price : Option ℚ
deriving DecidableEq

/-- A row of the final aggregated table (after `all_agg_data['id'] = ...`). -/
structure OutRow where
  id : ℕ
  invoice_date : ℕ
  country : ℤ
  total_price : Option ℚ
deriving DecidableEq

/-! ### Transform.filter_countries and Transform.encode_country_column
(etl.py lines 113-127) -/

/-- Filtering `self.data[self.data['country'].isin(country_list)]`:
`isin` matches strings exactly (no case folding). -/
def filter_countries (rows : List (Row String)) (country_list : List String) :
    List (Row String) :=
  rows.filter (fun r => r.country ∈ country_list)

/-- The dictionary comprehension over `self.data['country'].unique()`:
country name at position i of the first-appearance order gets code i. -/
def country_mappings (filtered : List (Row String)) : List String :=
  firstSeen (filtered.map (fun r => r.country))

/-- Wrapping an integer into the int8 range, the semantics of numpy's
`astype("int8")` on out-of-range values (silent modular wrap-around). -/
def toInt8 (n : ℤ) : ℤ := (n + 128) % 256 - 128

/-- Mapping the country column through `country_mappings.get` and casting
the resulting integer codes with `astype("int8")`. -/
def encode_country_column (filtered : List (Row String)) : List (Row ℤ) :=
  let m := country_mappings filtered
  filtered.map (fun r =>
    { invoice_id := r.invoice_id
      invoice_date := r.invoice_date
      total_price := r.total_price
      country := toInt8 (firstIndexOf m r.country : ℕ) })

/-! ### Transform.aggregate_data (etl.py lines 129-159) -/

/-- Key of the first groupby: `['invoice_date', 'invoice_id', 'country']`. -/
def rowKey (r : Row ℤ) : ℕ × String × ℤ := (r.invoice_date, r.invoice_id, r.country)

/-- Lexicographic order on groupby keys; pandas sorts group keys. -/
def keyLe (a b : ℕ × String × ℤ) : Prop :=
  a.1 < b.1 ∨ (a.1 = b.1 ∧ (a.2.1 < b.2.1 ∨ (a.2.1 = b.2.1 ∧ a.2.2 ≤ b.2.2)))

instance : DecidableRel keyLe := fun a b => by
  unfold keyLe; infer_instance

/-- The first aggregation
`self.data.groupby(['invoice_date', 'invoice_id', 'country']).agg({'total_price': 'sum'}).reset_index()`:
one entry per distinct (timestamp, invoice, country) key, keys sorted,
value the sum of `total_price` over the key's rows. -/
def aggByKey (rows : List (Row ℤ)) : List ((ℕ × String × ℤ) × ℚ) :=
  let ks := List.insertionSort keyLe (firstSeen (rows.map rowKey))
  ks.map (fun k => (k, ((rows.filter (fun r => rowKey r = k)).map (fun r => r.total_price)).sum))

/-- The country-partition regrouping
`agg_data[agg_data['country'] == country].groupby(['invoice_date']).agg({'total_price': 'sum'}).reset_index()`.
Grouping is by the full `invoice_date` timestamp (the cast kept its
time-of-day part), not by calendar day. -/
def perTsSeries (agg : List ((ℕ × String × ℤ) × ℚ)) (c : ℤ) : List (ℕ × ℚ) :=
  let sub := agg.filter (fun e => e.1.2.2 = c)
  let ts := List.insertionSort (fun a b : ℕ => a ≤ b) (firstSeen (sub.map (fun e => e.1.1)))
  ts.map (fun t => (t, ((sub.filter (fun e => e.1.1 = t)).map Prod.snd).sum))

/-- Calendar day of a timestamp (1440 minutes per day). -/
def tsDay (t : ℕ) : ℕ := t / 1440

/-- Earliest calendar day occurring in a series (0 on the empty series,
where it is never used). -/
def daysMin : List (ℕ × ℚ) → ℕ
  | [] => 0
  | p :: ps => (ps.map (fun q => tsDay q.1)).foldl min (tsDay p.1)

/-- Latest calendar day occurring in a series. -/
def daysMax : List (ℕ × ℚ) → ℕ
  | [] => 0
  | p :: ps => (ps.map (fun q => tsDay q.1)).foldl max (tsDay p.1)

/-- The semantics of `.resample('D', on='invoice_date').sum()`: one row per
calendar day from the earliest to the latest day of the input, whose value
is the sum of the entries falling on that day; a day with no entry gets
sum 0 (`min_count=0`), not NaN.  An empty input produces an empty frame. -/
def resampleDailySum (s : List (ℕ × ℚ)) : List (ℕ × ℚ) :=
  match s with
  | [] => []
  | p :: ps =>
    let dmin := daysMin (p :: ps)
    let dmax := daysMax (p :: ps)
    (List.range (dmax + 1 - dmin)).map (fun i =>
      (dmin + i, (((p :: ps).filter (fun q => tsDay q.1 = dmin + i)).map Prod.snd).sum))

/-- Largest index j < i holding a non-NaN value, with that value. -/
def prevKnown (xs : List (Option ℚ)) : ℕ → Option (ℕ × ℚ)
  | 0 => none
  | j + 1 =>
    match xs.getD j none with
    | some v => some (j, v)
    | none => prevKnown xs j

/-- Offset and value of the first non-NaN entry of a suffix. -/
def findFirstSome : List (Option ℚ) → Option (ℕ × ℚ)
  | [] => none
  | some v :: _ => some (0, v)
  | none :: xs => (findFirstSome xs).map (fun p => (p.1 + 1, p.2))

/-- Smallest index k ≥ i holding a non-NaN value, with that value. -/
def nextKnown (xs : List (Option ℚ)) (i : ℕ) : Option (ℕ × ℚ) :=
  (findFirstSome (xs.drop i)).map (fun p => (i + p.1, p.2))

/-- The semantics of `.interpolate()` (linear, forward direction) on a
float column over an equally spaced index: an interior NaN is replaced by
the linear interpolation between the nearest non-NaN values on either
side, a trailing NaN by the nearest earlier non-NaN value, and a leading
NaN (no earlier value) is left as NaN. -/
def interpolate (xs : List (Option ℚ)) : List (Option ℚ) :=
  (List.range xs.length).map (fun i =>
    match xs.getD i none with
    | some v => some v
    | none =>
      match prevKnown xs i with
      | none => none
      | some (j, vj) =>
        match nextKnown xs (i + 1) with
        | none => some vj
        | some (k, vk) => some (vj + (vk - vj) * ((i : ℚ) - (j : ℚ)) / ((k : ℚ) - (j : ℚ))))

/-- One iteration of the `for country in [0, 1, 2]` loop body: regroup the
country's totals by timestamp, remove outliers, resample daily, run
`.interpolate().round()` and tag the partition with its country code. -/
def aggregate_country (agg : List ((ℕ × String × ℤ) × ℚ)) (c : ℤ) : List AggRow :=
  let cleaned := iqr_outlier_removal (perTsSeries agg c)
  let daily := resampleDailySum cleaned
  let interp := interpolate (daily.map (fun p => some p.2))
  (daily.zip interp).map (fun q =>
    { invoice_date := q.1.1
      country := c
      total_price := q.2.map (fun v => ((roundHalfEven v : ℤ) : ℚ)) })

/-- The id column `[i for i in range(all_agg_data.shape[0])]`. -/
def assignIds : ℕ → List AggRow → List OutRow
  | _, [] => []
  | i, r :: rs =>
    { id := i, invoice_date := r.invoice_date, country := r.country,
      total_price := r.total_price } :: assignIds (i + 1) rs

/-- `Transform.aggregate_data`: the first groupby, the loop over the fixed
country codes [0, 1, 2] concatenating the three per-country aggregates in
order, and the id column added at the end. -/
def aggregate_data (rows : List (Row ℤ)) : List OutRow :=
  let agg := aggByKey rows
  let p0 := aggregate_country agg 0
  let p1 := aggregate_country agg 1
  let p2 := aggregate_country agg 2
  assignIds 0 (p0 ++ p1 ++ p2)

/-! ### Spec-side characterization of the series fed to the outlier filter -/

/-- Written from the amended reading of the spec sentence "Re-group ...,
summing across invoices": one total per distinct `invoice_date` timestamp
of the country's rows (sorted ascending), each total the sum of
`total_price` across all of that country's rows carrying that timestamp. -/
def perTimestampTotals (rows : List (Row ℤ)) (c : ℤ) : List (ℕ × ℚ) :=
  let sub := rows.filter (fun r => r.country = c)
  let ts := List.insertionSort (fun a b : ℕ => a ≤ b) (firstSeen (sub.map (fun r => r.invoice_date)))
  ts.map (fun t => (t, ((sub.filter (fun r => r.invoice_date = t)).map (fun r => r.total_price)).sum))

/-- The per-country series surviving the outlier filter (the input of the
daily resampling step). -/
def survivingSeries (agg : List ((ℕ × String × ℤ) × ℚ)) (c : ℤ) : List (ℕ × ℚ) :=
  iqr_outlier_removal (perTsSeries agg c)

/-! ### validation.build_expectation_suite (validation.py)

The suite is declarative data: a list of expectation configurations. -/

/-- Pandas dtypes occurring in the validated table. -/
inductive GEDtype
  | int8
  | int64
  | float64
  | datetimeNs
  | objectT
deriving DecidableEq

/-- A column of a candidate table: name, stored dtype, and cells
(`none` = missing/NaN). -/
structure GEColumn where
  name : String
  dtype : GEDtype
  values : List (Option ℚ)
deriving DecidableEq

/-- A candidate table is its ordered list of columns. -/
abbrev GETable := List GEColumn

/-- The expectation types used by the suite, with the kwargs the code
passes. -/
inductive ExpectationConfiguration
  | tableColumnsMatchOrderedList (column_list : List String)
  | tableColumnCountEqual (value : ℕ)
  | columnValuesNotNull (column : String)
  | columnDistinctValuesInSet (column : String) (value_set : List ℚ)
  | columnValuesOfType (column : String) (type_ : GEDtype)
  | columnMinBetween (column : String) (min_value : ℚ) (strict_min : Bool)
deriving DecidableEq

/-- The eight expectation configurations added by
`build_expectation_suite`, in source order. -/
def build_expectation_suite : List ExpectationConfiguration :=
  [ .tableColumnsMatchOrderedList ["id", "invoice_date", "country", "total_price"],
    .tableColumnCountEqual 4,
    .columnValuesNotNull "invoice_date",
    .columnDistinctValuesInSet "country" [0, 1, 2],
    .columnValuesOfType "country" GEDtype.int8,
    .columnMinBetween "total_price" 0 false,
    .columnValuesOfType "total_price" GEDtype.float64,
    .columnValuesNotNull "total_price" ]

/-- Lookup of a column by name (first match). -/
def findColumn (t : GETable) (name : String) : Option GEColumn :=
  t.find? (fun col => col.name = name)

/-- Cells of a column that are not missing. -/
def nonNullValues (c : GEColumn) : List ℚ := c.values.filterMap id

/-- Minimum of a list of rationals, `none` when empty. -/
def minQ? : List ℚ → Option ℚ
  | [] => none
  | v :: vs => some (vs.foldl min v)

/-- Evaluation of one expectation configuration against a candidate table
(great_expectations semantics; an expectation naming an absent column
fails, an aggregate expectation over no values passes vacuously). -/
def checkExpectation (t : GETable) : ExpectationConfiguration → Bool
  | .tableColumnsMatchOrderedList cols => t.map (fun c => c.name) = cols
  | .tableColumnCountEqual n => t.length = n
  | .columnValuesNotNull col =>
    match findColumn t col with
    | none => false
    | some c => c.values.all (fun v => v.isSome)
  | .columnDistinctValuesInSet col vs =>
    match findColumn t col with
    | none => false
    | some c => (firstSeen (nonNullValues c)).all (fun x => x ∈ vs)
  | .columnValuesOfType col ty =>
    match findColumn t col with
    | none => false
    | some c => c.dtype = ty
  | .columnMinBetween col mn strict =>
    match findColumn t col with
    | none => false
    | some c =>
      match minQ? (nonNullValues c) with
      | none => true
      | some m => if strict then decide (mn < m) else decide (mn ≤ m)

/-- A table passes the suite iff it passes every configuration. -/
def validateSuite (t : GETable) : Bool :=
  build_expectation_suite.all (checkExpectation t)

/-- The validation contract exactly as the spec states it: 4 columns in
the stated order; invoice_date never missing; country values drawn from
set 0, 1, 2 and stored as int8; total_price never missing, stored as
float64, with minimum at least 0. -/
def specContract (t : GETable) : Prop :=
  t.map (fun c => c.name) = ["id", "invoice_date", "country", "total_price"]
  ∧ (∀ c ∈ t, c.name = "invoice_date" → ∀ v ∈ c.values, v.isSome = true)
  ∧ (∀ c ∈ t, c.name = "country" →
      c.dtype = GEDtype.int8 ∧ ∀ x : ℚ, some x ∈ c.values → x = 0 ∨ x = 1 ∨ x = 2)
  ∧ (∀ c ∈ t, c.name = "total_price" →
      (∀ v ∈ c.values, v.isSome = true) ∧ c.dtype = GEDtype.float64
        ∧ ∀ x : ℚ, some x ∈ c.values → 0 ≤ x)

/-! ### Extract._extract_records_from_file (etl.py lines 41-81)

State of the cache file between runs, and the observable outcome of one
call.  `read_csv` on a file with no parseable content raises
EmptyDataError; the handler unlinks the cache file and then raises
ValueError.  A download failure is caught and the function returns None;
a missing file at read time raises FileNotFoundError (uncaught). -/

/-- Contents of the cache path: no file, a file `read_csv` cannot parse
(zero rows), or a parseable file with its records. -/
inductive CacheState (α : Type)
  | absent
  | emptyFile
  | dataFile (records : List α)
deriving DecidableEq

/-- Observable outcome of `_extract_records_from_file`. -/
inductive ExtractOutcome (α : Type)
  | pyNone
  | valueErrorEmpty
  | fileNotFoundError
  | records (rs : List α)
deriving DecidableEq

/-- The `pd.read_csv` attempt plus its `except EmptyDataError` handler:
returns the new cache state together with the outcome. -/
def readCsvStep {α : Type} : CacheState α → CacheState α × ExtractOutcome α
  | .absent => (.absent, .fileNotFoundError)
  | .emptyFile => (.absent, .valueErrorEmpty)
  | .dataFile rs => (.dataFile rs, .records rs)

/-- `_extract_records_from_file`: when the file exists it is read
directly (no download); when it is missing, the download is attempted
first — an exception there is caught and the function returns None. -/
def extract_records_from_file {α : Type} (fs : CacheState α)
    (download : Except String (CacheState α)) : CacheState α × ExtractOutcome α :=
  match fs with
  | .absent =>
    match download with
    | .error _ => (.absent, .pyNone)
    | .ok fs' => readCsvStep fs'
  | st => readCsvStep st

/-! ### Concrete inputs used by witnesses and counterexamples -/

/-- The spec §8 example input: (2011-01-01, inv1, UK, 10.0) and
(2011-01-03, inv2, UK, 20.0), filtered to code 0.  Day 14975 is
2011-01-01, so the timestamps are midnight of days 14975 and 14977. -/
def exampleRowsC1 : List (Row ℤ) :=
  [ { invoice_id := "inv1", invoice_date := 14975 * 1440, total_price := 10, country := 0 },
    { invoice_id := "inv2", invoice_date := 14977 * 1440, total_price := 20, country := 0 } ]

/-- Two invoices of one country on the same calendar day at different
times of day (08:00 and 09:00 of 2011-01-01). -/
def exampleRowsC2 : List (Row ℤ) :=
  [ { invoice_id := "a", invoice_date := 14975 * 1440 + 480, total_price := 10, country := 0 },
    { invoice_id := "b", invoice_date := 14975 * 1440 + 540, total_price := 20, country := 0 } ]

/-- The spec §8 outlier series [1000, 10, 11, 12, 13] placed on five
consecutive days with the extreme value on the first day. -/
def exampleRowsC4 : List (Row ℤ) :=
  [ { invoice_id := "a", invoice_date := 100 * 1440, total_price := 1000, country := 0 },
    { invoice_id := "b", invoice_date := 101 * 1440, total_price := 10, country := 0 },
    { invoice_id := "c", invoice_date := 102 * 1440, total_price := 11, country := 0 },
    { invoice_id := "d", invoice_date := 103 * 1440, total_price := 12, country := 0 },
    { invoice_id := "e", invoice_date := 104 * 1440, total_price := 13, country := 0 } ]

/-- 129 pairwise distinct one-character country names. -/
def manyCountryNames : List String :=
  (List.range 129).map (fun i => String.mk [Char.ofNat (33 + i)])

/-- One row per name of `manyCountryNames`, so 129 distinct countries
survive filtering against that same allow-list. -/
def manyCountryRows : List (Row String) :=
  manyCountryNames.map (fun s =>
    { invoice_id := "inv", invoice_date := 0, total_price := 1, country := s })

/-- The allow-list the pipeline passes to `filter_countries`. -/
def exampleAllowList : List String := ["United Kingdom", "France", "Germany"]

/-- Raw rows with mixed-case country names: "france" is not a case-exact
member of the allow-list. -/
def exampleRowsC5 : List (Row String) :=
  [ { invoice_id := "i1", invoice_date := 10, total_price := 5, country := "United Kingdom" },
    { invoice_id := "i2", invoice_date := 20, total_price := 6, country := "france" },
    { invoice_id := "i3", invoice_date := 30, total_price := 7, country := "France" },
    { invoice_id := "i4", invoice_date := 40, total_price := 8, country := "United Kingdom" } ]

/-- Raw rows none of whose countries match the allow-list. -/
def exampleRowsC9 : List (Row String) :=
  [ { invoice_id := "i1", invoice_date := 10, total_price := 5, country := "Spain" },
    { invoice_id := "i2", invoice_date := 20, total_price := 6, country := "Italy" } ]

/-- Encoded rows with one country code (5) outside the fixed loop codes. -/
def exampleRowsC10 : List (Row ℤ) :=
  [ { invoice_id := "i1", invoice_date := 14975 * 1440, total_price := 5, country := 0 },
    { invoice_id := "i2", invoice_date := 14975 * 1440, total_price := 6, country := 5 } ]

/-! ### Helper lemmas -/

theorem mem_firstSeenAux {α : Type} [DecidableEq α] (seen l : List α) (x : α) :
    x ∈ firstSeenAux seen l ↔ x ∈ l ∧ x ∉ seen := by
  induction l generalizing seen with
  | nil => simp [firstSeenAux]
  | cons a l ih =>
    by_cases ha : a ∈ seen
    · rw [firstSeenAux, if_pos ha, ih]
      constructor
      · rintro ⟨hl, hs⟩; exact ⟨List.mem_cons_of_mem a hl, hs⟩
      · rintro ⟨hal, hs⟩
        rcases List.mem_cons.mp hal with rfl | hl
        · exact absurd ha hs
        · exact ⟨hl, hs⟩
    · rw [firstSeenAux, if_neg ha]
      simp only [List.mem_cons, ih, List.mem_cons]
      constructor
      · rintro (rfl | ⟨hl, hs⟩)
        · exact ⟨Or.inl rfl, ha⟩
        · exact ⟨Or.inr hl, fun hx => hs (Or.inr hx)⟩
      · rintro ⟨rfl | hl, hs⟩
        · exact Or.inl rfl
        · by_cases hxa : x = a
          · exact Or.inl hxa
          · exact Or.inr ⟨hl, fun hx => by
              rcases hx with h | h
              · exact hxa h
              · exact hs h⟩

theorem nodup_firstSeenAux {α : Type} [DecidableEq α] (seen l : List α) :
    (firstSeenAux seen l).Nodup := by
  induction l generalizing seen with
  | nil => simp [firstSeenAux]
  | cons a l ih =>
    by_cases ha : a ∈ seen
    · rw [firstSeenAux, if_pos ha]; exact ih seen
    · rw [firstSeenAux, if_neg ha]
      refine List.nodup_cons.mpr ⟨fun hmem => ?_, ih (a :: seen)⟩
      have := (mem_firstSeenAux (a :: seen) l a).mp hmem
      exact this.2 (List.mem_cons_self a seen)

theorem mem_firstSeen {α : Type} [DecidableEq α] (l : List α) (x : α) :
    x ∈ firstSeen l ↔ x ∈ l := by
  unfold firstSeen
  rw [mem_firstSeenAux]
  simp

theorem nodup_firstSeen {α : Type} [DecidableEq α] (l : List α) :
    (firstSeen l).Nodup := nodup_firstSeenAux [] l

theorem firstSeenAux_of_nodup {α : Type} [DecidableEq α] (seen l : List α)
    (hl : l.Nodup) (hdisj : ∀ x ∈ l, x ∉ seen) : firstSeenAux seen l = l := by
  induction l generalizing seen with
  | nil => rfl
  | cons a l ih =>
    have ha : a ∉ seen := hdisj a (List.mem_cons_self a l)
    rw [firstSeenAux, if_neg ha]
    have hln : l.Nodup := (List.nodup_cons.mp hl).2
    have hanl : a ∉ l := (List.nodup_cons.mp hl).1
    rw [ih (a :: seen) hln]
    intro x hx hmem
    rcases List.mem_cons.mp hmem with rfl | hxs
    · exact hanl hx
    · exact hdisj x (List.mem_cons_of_mem a hx) hxs

/-- On a duplicate-free list, first-appearance deduplication is the
identity. -/
theorem firstSeen_of_nodup {α : Type} [DecidableEq α] (l : List α)
    (hl : l.Nodup) : firstSeen l = l :=
  firstSeenAux_of_nodup [] l hl (fun _ _ h => by simp at h)

/-- Over a duplicate-free key list, the sum of `if a = k then x else 0`
collapses to a membership test. -/
theorem sum_map_ite_of_nodup {κ : Type} [DecidableEq κ] (K : List κ) (hK : K.Nodup)
    (a : κ) (x : ℚ) :
    (K.map (fun k => if a = k then x else 0)).sum = if a ∈ K then x else 0 := by
  induction K with
  | nil => simp
  | cons k ks ihk =>
    have hks : ks.Nodup := (List.nodup_cons.mp hK).2
    by_cases h : a = k
    · subst h
      have hnot : a ∉ ks := (List.nodup_cons.mp hK).1
      simp [ihk hks, hnot]
    · simp [h, ihk hks]

/-- Summing group-wise sums over a duplicate-free list of group keys equals
summing over all rows whose key belongs to that list. -/
theorem sum_over_groups {α κ : Type} [DecidableEq κ]
    (K : List κ) (hK : K.Nodup) (rows : List α) (key : α → κ) (f : α → ℚ) :
    (K.map (fun k => ((rows.filter (fun r => key r = k)).map f).sum)).sum
      = ((rows.filter (fun r => key r ∈ K)).map f).sum := by
  induction rows with
  | nil => simp
  | cons r rs ih =>
    have hsplit : ∀ k : κ,
        ((List.filter (fun a => decide (key a = k)) (r :: rs)).map f).sum
          = (if key r = k then f r else 0)
            + ((List.filter (fun a => decide (key a = k)) rs).map f).sum := by
      intro k
      by_cases h : key r = k <;> simp [List.filter_cons, h]
    have hone : (K.map (fun k => if key r = k then f r else 0)).sum
        = (if key r ∈ K then f r else 0) := sum_map_ite_of_nodup K hK (key r) (f r)
    calc (K.map (fun k => ((List.filter (fun a => decide (key a = k)) (r :: rs)).map f).sum)).sum
        = (K.map (fun k => (if key r = k then f r else 0)
            + ((List.filter (fun a => decide (key a = k)) rs).map f).sum)).sum := by
          exact congrArg List.sum (List.map_congr_left (fun k _ => hsplit k))
      _ = (K.map (fun k => if key r = k then f r else 0)).sum
            + (K.map (fun k => ((List.filter (fun a => decide (key a = k)) rs).map f).sum)).sum := by
          rw [← List.sum_map_add]
      _ = (if key r ∈ K then f r else 0)
            + ((rs.filter (fun a => key a ∈ K)).map f).sum := by rw [hone, ih]
      _ = ((List.filter (fun a => decide (key a ∈ K)) (r :: rs)).map f).sum := by
          by_cases h : key r ∈ K <;> simp [List.filter_cons, h]

/-- Filtering the image of a map is mapping the filtered preimage. -/
theorem filter_of_map {α β : Type} (f : α → β) (p : β → Bool) (l : List α) :
    (l.map f).filter p = (l.filter (fun a => p (f a))).map f := by
  induction l with
  | nil => rfl
  | cons a l ih =>
    simp only [List.map_cons, List.filter_cons]
    by_cases h : p (f a) <;> simp [h, ih]

theorem foldl_min_le_init {α : Type} [LinearOrder α] (l : List α) (a : α) :
    l.foldl min a ≤ a := by
  induction l generalizing a with
  | nil => simp
  | cons b l ih =>
    simpa using le_trans (ih (min a b)) (min_le_left a b)

theorem foldl_min_le_mem {α : Type} [LinearOrder α] (l : List α) (a x : α)
    (hx : x ∈ l) : l.foldl min a ≤ x := by
  induction l generalizing a with
  | nil => simp at hx
  | cons b l ih =>
    rcases List.mem_cons.mp hx with rfl | hx'
    · simpa using le_trans (foldl_min_le_init l (min a x)) (min_le_right a x)
    · exact ih (min a b) hx'

theorem init_le_foldl_max {α : Type} [LinearOrder α] (l : List α) (a : α) :
    a ≤ l.foldl max a := by
  induction l generalizing a with
  | nil => simp
  | cons b l ih =>
    simpa using le_trans (le_max_left a b) (ih (max a b))

theorem mem_le_foldl_max {α : Type} [LinearOrder α] (l : List α) (a x : α)
    (hx : x ∈ l) : x ≤ l.foldl max a := by
  induction l generalizing a with
  | nil => simp at hx
  | cons b l ih =>
    rcases List.mem_cons.mp hx with rfl | hx'
    · simpa using le_trans (le_max_right a x) (init_le_foldl_max l (max a x))
    · exact ih (max a b) hx'

theorem mark_then_drop (cond : ℚ → Prop) [DecidablePred cond] (s : List (ℕ × ℚ)) :
    ((s.map (fun p => (p.1, if cond p.2 then (none : Option ℚ) else some p.2))).filterMap
        (fun p => p.2.map (fun v => (p.1, v))))
      = s.filter (fun p => ¬ cond p.2) := by
  induction s with
  | nil => rfl
  | cons p ps ih =>
    by_cases h : cond p.2 <;>
      simp [List.filterMap_cons, List.filter_cons, h, ih]

/-! ### Claim C1 — the spec example through the code path

The spec expects day 2011-01-02 to be linearly interpolated to 15.0.  The
code resamples with `.sum()`, which fills the empty day with 0.0 rather
than NaN, so the subsequent `.interpolate()` finds nothing to fill. -/

/-- C1: evaluating `Transform.aggregate_data` on the spec's own two-row
example.  The output has 3 rows for 2011-01-01..03 (days 14975..14977),
but the middle day's total_price is 0, not the claimed interpolated 15:
`resample('D').sum()` zero-fills empty days, leaving no NaN for
`.interpolate()` to fill. -/
theorem claimC1_code_result :
    (aggregate_data exampleRowsC1).map (fun r => (r.id, r.invoice_date, r.country, r.total_price))
      = [(0, 14975, 0, some 10), (1, 14976, 0, some 0), (2, 14977, 0, some 20)] :=
  of_decide_eq_true (by with_unfolding_all rfl)

/-! ### Claim C2 — what series the outlier filter runs on -/

/-- C2 counterexample: with two invoices of country 0 on the same
calendar day at different times, the series handed to the outlier filter
has 2 entries although only 1 calendar day is observed — the regrouping
is by full timestamp, not by calendar day alone, so the claim is false. -/
theorem claimC2_counterexample :
    (perTsSeries (aggByKey exampleRowsC2) 0).length = 2
      ∧ firstSeen (exampleRowsC2.map (fun r => tsDay r.invoice_date)) = [14975] :=
  of_decide_eq_true (by with_unfolding_all rfl)

/-! ### Claim C3 — the IQR outlier filter -/

/-- C3: the outlier filter computes Q1 and Q3 as the 25th and 75th
linear-interpolation percentiles of the full input series, and keeps
exactly the entries whose value lies within
[Q1 − 3·IQR, Q3 + 3·IQR] inclusive: values equal to a bound survive,
values strictly outside are dropped (not clamped — survivors keep their
original value and position), and the bounds come from the one quantile
computation over the full series, never from a trimmed series. -/
theorem claimC3_iqr_filter (s : List (ℕ × ℚ)) (q1 q3 : ℚ)
    (h1 : quantile? (s.map Prod.snd) (1/4) = some q1)
    (h3 : quantile? (s.map Prod.snd) (3/4) = some q3) :
    iqr_outlier_removal s
      = s.filter (fun p => q1 - 3 * (q3 - q1) ≤ p.2 ∧ p.2 ≤ q3 + 3 * (q3 - q1)) := by
  unfold iqr_outlier_removal
  dsimp only
  rw [h1, h3]
  dsimp only
  rw [mark_then_drop (fun v => v < q1 - 3 * (q3 - q1) ∨ q3 + 3 * (q3 - q1) < v) s]
  apply List.filter_congr
  intro p _
  rw [decide_eq_decide]
  rw [not_or, not_lt, not_lt]

/-- C3 witness: the spec §8 series [10, 12, 11, 13, 1000] has Q1 = 11,
Q3 = 13, bounds [5, 19]; the filter drops exactly the entry 1000. -/
theorem claimC3_witness :
    quantile? [10, 12, 11, 13, 1000] (1/4) = some 11
      ∧ iqr_outlier_removal [(0, 10), (1, 12), (2, 11), (3, 13), (4, 1000)]
          = [(0, 10), (1, 12), (2, 11), (3, 13)] := by
  constructor
  · exact of_decide_eq_true (by with_unfolding_all rfl)
  · rw [claimC3_iqr_filter [(0, 10), (1, 12), (2, 11), (3, 13), (4, 1000)] 11 13
      (of_decide_eq_true (by with_unfolding_all rfl))
      (of_decide_eq_true (by with_unfolding_all rfl))]
    exact of_decide_eq_true (by with_unfolding_all rfl)

/-! ### Claim C8 — empty cache handling -/

/-- C8: when the cache file exists but `read_csv` finds zero rows in it,
the call unlinks the file and then raises ValueError; the outcome does
not depend on the download collaborator at all (no re-download in the
same run), and a following run, seeing no file, goes through the
download branch and returns the fresh records. -/
theorem claimC8_empty_cache {α : Type} (download : Except String (CacheState α))
    (rs : List α) :
    extract_records_from_file CacheState.emptyFile download
        = ((CacheState.absent : CacheState α), ExtractOutcome.valueErrorEmpty)
      ∧ extract_records_from_file (CacheState.absent : CacheState α)
          (Except.ok (CacheState.dataFile rs))
          = (CacheState.dataFile rs, ExtractOutcome.records rs) :=
  ⟨rfl, rfl⟩

/-! ### Claim C9 — empty partitions aggregate to empty output -/

/-- C9: when no row's country matches the allow-list, the filtered data
is empty and the whole transform chain completes, producing the empty
table; on the empty series the quantile is the NaN `none`, outlier
removal returns the empty series, and resampling and interpolation
return empty frames. -/
theorem claimC9_empty_input (rows : List (Row String)) (country_list : List String)
    (h : ∀ r ∈ rows, r.country ∉ country_list) :
    filter_countries rows country_list = []
      ∧ aggregate_data (encode_country_column (filter_countries rows country_list)) = []
      ∧ quantile? ([] : List ℚ) (1/4) = none
      ∧ iqr_outlier_removal [] = []
      ∧ resampleDailySum [] = []
      ∧ interpolate [] = [] := by
  have hf : filter_countries rows country_list = [] := by
    apply List.filter_eq_nil_iff.mpr
    intro r hr
    simpa using h r hr
  refine ⟨hf, ?_, rfl, rfl, rfl, rfl⟩
  rw [hf]
  rfl

/-- C9 witness: two rows from countries outside the allow-list produce
the empty filtered set and the empty aggregated table. -/
theorem claimC9_witness :
    filter_countries exampleRowsC9 exampleAllowList = []
      ∧ aggregate_data (encode_country_column (filter_countries exampleRowsC9 exampleAllowList)) = [] := by
  have h := claimC9_empty_input exampleRowsC9 exampleAllowList (by decide)
  exact ⟨h.1, h.2.1⟩

/-! ### Claims C5 and C6 — country partitioning and 8-bit encoding -/

theorem firstIndexOf_lt_length {α : Type} [DecidableEq α] (l : List α) (x : α)
    (hx : x ∈ l) : firstIndexOf l x < l.length := by
  induction l with
  | nil => simp at hx
  | cons a l ih =>
    by_cases h : a = x
    · simp [firstIndexOf, h]
    · rcases List.mem_cons.mp hx with rfl | hx'
      · exact absurd rfl h
      · simp only [firstIndexOf, if_neg h, List.length_cons]
        exact Nat.succ_lt_succ (ih hx')

/-- Values below 128 survive the int8 cast unchanged. -/
theorem toInt8_of_lt (n : ℕ) (h : n < 128) : toInt8 (n : ℤ) = n := by
  unfold toInt8
  have h1 : (0 : ℤ) ≤ (n : ℤ) + 128 := by positivity
  have h2 : (n : ℤ) + 128 < 256 := by omega
  rw [Int.emod_eq_of_lt h1 h2]
  ring

/-- The int8 cast always lands in [-128, 127]. -/
theorem toInt8_range (n : ℤ) : -128 ≤ toInt8 n ∧ toInt8 n ≤ 127 := by
  unfold toInt8
  have h0 : (0 : ℤ) ≤ (n + 128) % 256 := Int.emod_nonneg _ (by norm_num)
  have h1 : (n + 128) % 256 < 256 := Int.emod_lt_of_pos _ (by norm_num)
  omega

/-- C5: the Country Partitioner keeps exactly the rows whose country is a
case-exact member of the allow-list, and — whenever at most 128 distinct
countries survive, so the int8 cast is the identity — replaces each
surviving row's country name by the 0-indexed position of that name's
first appearance in the filtered data. -/
theorem claimC5_partition_encode (rows : List (Row String)) (country_list : List String)
    (h128 : (country_mappings (filter_countries rows country_list)).length ≤ 128) :
    filter_countries rows country_list = rows.filter (fun r => r.country ∈ country_list)
      ∧ encode_country_column (filter_countries rows country_list)
          = (filter_countries rows country_list).map (fun r =>
              { invoice_id := r.invoice_id
                invoice_date := r.invoice_date
                total_price := r.total_price
                country := (firstIndexOf (country_mappings (filter_countries rows country_list))
                    r.country : ℕ) }) := by
  refine ⟨rfl, ?_⟩
  simp only [encode_country_column]
  apply List.map_congr_left
  intro r hr
  have hmem : r.country ∈ country_mappings (filter_countries rows country_list) := by
    unfold country_mappings
    rw [mem_firstSeen]
    exact List.mem_map_of_mem _ hr
  have hlt : firstIndexOf (country_mappings (filter_countries rows country_list)) r.country < 128 :=
    lt_of_lt_of_le (firstIndexOf_lt_length _ _ hmem) h128
  rw [toInt8_of_lt _ hlt]

/-- C5 witness: on the mixed-case input, "france" is dropped (case-exact
matching) and the surviving names get codes by first appearance. -/
theorem claimC5_witness :
    filter_countries exampleRowsC5 exampleAllowList
        = exampleRowsC5.filter (fun r => r.country ∈ exampleAllowList)
      ∧ encode_country_column (filter_countries exampleRowsC5 exampleAllowList)
          = (filter_countries exampleRowsC5 exampleAllowList).map (fun r =>
              { invoice_id := r.invoice_id
                invoice_date := r.invoice_date
                total_price := r.total_price
                country := (firstIndexOf (country_mappings (filter_countries exampleRowsC5 exampleAllowList))
                    r.country : ℕ) }) :=
  claimC5_partition_encode exampleRowsC5 exampleAllowList (by decide)

set_option maxRecDepth 400000 in
/-- C6 counterexample: with 129 distinct surviving countries, no error of
any kind is signalled — `encode_country_column` returns normally and the
129th country's code has silently wrapped to −128 (codes 0..127 followed
by −128), refuting the claim that encoding fails with an
EncodingRangeError instead of wrapping. -/
theorem claimC6_counterexample :
    (encode_country_column (filter_countries manyCountryRows manyCountryNames)).map
        (fun r => r.country)
      = (List.range 128).map (fun n => (n : ℤ)) ++ [-128] :=
  of_decide_eq_true (by with_unfolding_all rfl)

/-- C6 as amended: the 8-bit encoding never fails; every surviving row's
stored country code is the int8 wrap-around of its first-appearance
index, hence always within [-128, 127] — out-of-range indices are
silently wrapped, not rejected. -/
theorem claimC6_amended (rows : List (Row String)) (country_list : List String)
    (r : Row ℤ) (hr : r ∈ encode_country_column (filter_countries rows country_list)) :
    -128 ≤ r.country ∧ r.country ≤ 127 := by
  simp only [encode_country_column, List.mem_map] at hr
  obtain ⟨a, -, rfl⟩ := hr
  exact toInt8_range _

/-- C6 witness: a concrete encoded row's code lies within the int8
range. -/
theorem claimC6_witness :
    -128 ≤ ({ invoice_id := "i1", invoice_date := 10, total_price := 5, country := 0 } : Row ℤ).country
      ∧ ({ invoice_id := "i1", invoice_date := 10, total_price := 5, country := 0 } : Row ℤ).country ≤ 127 :=
  claimC6_amended exampleRowsC5 exampleAllowList _ (by decide)

/-! ### Structure lemmas for the aggregate -/

theorem interpolate_length (xs : List (Option ℚ)) : (interpolate xs).length = xs.length := by
  simp [interpolate]

theorem assignIds_pairs (i : ℕ) (l : List AggRow) :
    (assignIds i l).map (fun r => (r.country, r.invoice_date))
      = l.map (fun r => (r.country, r.invoice_date)) := by
  induction l generalizing i with
  | nil => rfl
  | cons r rs ih => simp [assignIds, ih]

theorem assignIds_filter_dates (i : ℕ) (l : List AggRow) (c : ℤ) :
    ((assignIds i l).filter (fun r => r.country = c)).map (fun r => r.invoice_date)
      = (l.filter (fun r => r.country = c)).map (fun r => r.invoice_date) := by
  induction l generalizing i with
  | nil => rfl
  | cons r rs ih =>
    by_cases h : r.country = c <;>
      simp [assignIds, List.filter_cons, h, ih]

theorem mem_assignIds (i : ℕ) (l : List AggRow) (r : OutRow) (hr : r ∈ assignIds i l) :
    ∃ a ∈ l, r.country = a.country := by
  induction l generalizing i with
  | nil => simp [assignIds] at hr
  | cons b bs ih =>
    rw [assignIds] at hr
    rcases List.mem_cons.mp hr with rfl | h
    · exact ⟨b, List.mem_cons_self _ _, rfl⟩
    · obtain ⟨a, ha, he⟩ := ih (i + 1) h
      exact ⟨a, List.mem_cons_of_mem _ ha, he⟩

theorem aggregate_country_country (agg : List ((ℕ × String × ℤ) × ℚ)) (c : ℤ)
    (r : AggRow) (hr : r ∈ aggregate_country agg c) : r.country = c := by
  simp only [aggregate_country, List.mem_map] at hr
  obtain ⟨q, -, rfl⟩ := hr
  rfl

theorem resample_fst (p : ℕ × ℚ) (ps : List (ℕ × ℚ)) :
    (resampleDailySum (p :: ps)).map Prod.fst
      = List.range' (daysMin (p :: ps)) (daysMax (p :: ps) + 1 - daysMin (p :: ps)) := by
  simp only [resampleDailySum, List.map_map]
  rw [List.range'_eq_map_range]
  rfl

theorem resample_fst_nodup (s : List (ℕ × ℚ)) :
    ((resampleDailySum s).map Prod.fst).Nodup := by
  cases s with
  | nil => simp [resampleDailySum]
  | cons p ps =>
    rw [resample_fst]
    exact List.nodup_range' _ _

theorem aggregate_country_dates (agg : List ((ℕ × String × ℤ) × ℚ)) (c : ℤ) :
    (aggregate_country agg c).map (fun r => r.invoice_date)
      = (resampleDailySum (survivingSeries agg c)).map Prod.fst := by
  simp only [aggregate_country, survivingSeries, List.map_map]
  have hlen : (resampleDailySum (iqr_outlier_removal (perTsSeries agg c))).length
      ≤ (interpolate ((resampleDailySum (iqr_outlier_removal (perTsSeries agg c))).map
          (fun p => some p.2))).length := by
    rw [interpolate_length, List.length_map]
  conv_rhs => rw [← List.map_fst_zip _ _ hlen]
  rw [List.map_map]
  rfl

theorem aggregate_country_pairs (agg : List ((ℕ × String × ℤ) × ℚ)) (c : ℤ) :
    (aggregate_country agg c).map (fun r => (r.country, r.invoice_date))
      = ((resampleDailySum (survivingSeries agg c)).map Prod.fst).map (fun d => (c, d)) := by
  simp only [aggregate_country, survivingSeries, List.map_map]
  have hlen : (resampleDailySum (iqr_outlier_removal (perTsSeries agg c))).length
      ≤ (interpolate ((resampleDailySum (iqr_outlier_removal (perTsSeries agg c))).map
          (fun p => some p.2))).length := by
    rw [interpolate_length, List.length_map]
  conv_rhs => rw [← List.map_fst_zip _ _ hlen]
  rw [List.map_map]
  rfl

theorem aggregate_data_filter_dates (rows : List (Row ℤ)) (c : ℤ)
    (hc : c ∈ ([0, 1, 2] : List ℤ)) :
    ((aggregate_data rows).filter (fun r => r.country = c)).map (fun r => r.invoice_date)
      = (aggregate_country (aggByKey rows) c).map (fun r => r.invoice_date) := by
  simp only [aggregate_data]
  rw [assignIds_filter_dates]
  have hfilter : ∀ c' : ℤ,
      (aggregate_country (aggByKey rows) c').filter (fun r => r.country = c)
        = if c' = c then aggregate_country (aggByKey rows) c' else [] := by
    intro c'
    by_cases h : c' = c
    · subst h
      rw [if_pos rfl]
      apply List.filter_eq_self.mpr
      intro a ha
      simpa using aggregate_country_country _ _ _ ha
    · rw [if_neg h]
      apply List.filter_eq_nil_iff.mpr
      intro a ha hdec
      apply h
      have hac := aggregate_country_country _ _ _ ha
      rw [← hac]
      simpa using hdec
  rw [List.filter_append, List.filter_append, hfilter 0, hfilter 1, hfilter 2]
  have hc' : c = 0 ∨ c = 1 ∨ c = 2 := by simpa using hc
  rcases hc' with rfl | rfl | rfl <;> simp

/-! ### Claim C4 — one row per day of the covered range -/

/-- C4 counterexample: the outlier 1000 sits on the earliest observed day
(day 100).  After outlier removal, resampling starts at the earliest
surviving day 101, so the output misses day 100 although country 0 has
surviving observations and day 100 lies inside the observed range —
refuting the claim that the output covers [earliest observed day, latest
observed day]. -/
theorem claimC4_counterexample :
    exampleRowsC4.map (fun r => tsDay r.invoice_date) = [100, 101, 102, 103, 104]
      ∧ (aggregate_data exampleRowsC4).map (fun r => r.invoice_date) = [101, 102, 103, 104]
      ∧ (aggregate_data exampleRowsC4).filter (fun r => r.country = 0) ≠ [] :=
  of_decide_eq_true (by with_unfolding_all rfl)

/-- C4 as amended: for every country code of the loop whose series has at
least one observation surviving the outlier filter, the aggregated
output restricted to that country lists exactly the calendar days from
the earliest surviving day to the latest surviving day, each exactly
once and in order; and the whole concatenated output has no duplicate
(country, date) pair. -/
theorem claimC4_day_coverage (rows : List (Row ℤ)) (c : ℤ)
    (hc : c ∈ ([0, 1, 2] : List ℤ))
    (hne : survivingSeries (aggByKey rows) c ≠ []) :
    daysMin (survivingSeries (aggByKey rows) c) ≤ daysMax (survivingSeries (aggByKey rows) c)
      ∧ ((aggregate_data rows).filter (fun r => r.country = c)).map (fun r => r.invoice_date)
          = List.range' (daysMin (survivingSeries (aggByKey rows) c))
              (daysMax (survivingSeries (aggByKey rows) c) + 1
                - daysMin (survivingSeries (aggByKey rows) c))
      ∧ ((aggregate_data rows).map (fun r => (r.country, r.invoice_date))).Nodup := by
  obtain ⟨p, ps, hs⟩ : ∃ p ps, survivingSeries (aggByKey rows) c = p :: ps := by
    cases h : survivingSeries (aggByKey rows) c with
    | nil => exact absurd h hne
    | cons p ps => exact ⟨p, ps, rfl⟩
  refine ⟨?_, ?_, ?_⟩
  · rw [hs]
    simp only [daysMin, daysMax]
    exact le_trans (foldl_min_le_init _ _) (init_le_foldl_max _ _)
  · rw [aggregate_data_filter_dates rows c hc, aggregate_country_dates, hs, resample_fst]
  · simp only [aggregate_data]
    rw [assignIds_pairs]
    simp only [List.map_append]
    rw [aggregate_country_pairs, aggregate_country_pairs, aggregate_country_pairs]
    have hnd : ∀ c' : ℤ,
        (((resampleDailySum (survivingSeries (aggByKey rows) c')).map Prod.fst).map
          (fun d => ((c' : ℤ), d))).Nodup := by
      intro c'
      exact (resample_fst_nodup _).map (fun d₁ d₂ hd => by simpa using hd)
    have hdisj : ∀ c₁ c₂ : ℤ, c₁ ≠ c₂ →
        List.Disjoint
          (((resampleDailySum (survivingSeries (aggByKey rows) c₁)).map Prod.fst).map
            (fun d => ((c₁ : ℤ), d)))
          (((resampleDailySum (survivingSeries (aggByKey rows) c₂)).map Prod.fst).map
            (fun d => ((c₂ : ℤ), d))) := by
      intro c₁ c₂ hne' a ha hb
      simp only [List.mem_map] at ha hb
      obtain ⟨d₁, -, rfl⟩ := ha
      obtain ⟨d₂, -, hb'⟩ := hb
      have hcc : c₂ = c₁ := congrArg Prod.fst hb'
      exact hne' hcc.symm
    rw [List.append_assoc, List.nodup_append]
    refine ⟨hnd 0, ?_, ?_⟩
    · rw [List.nodup_append]
      exact ⟨hnd 1, hnd 2, hdisj 1 2 (by decide)⟩
    · intro a ha hb
      rcases List.mem_append.mp hb with hb1 | hb2
      · exact hdisj 0 1 (by decide) ha hb1
      · exact hdisj 0 2 (by decide) ha hb2

/-- C4 witness: the amended statement instantiated on the five-day
example with the edge outlier. -/
theorem claimC4_witness :
    daysMin (survivingSeries (aggByKey exampleRowsC4) 0)
        ≤ daysMax (survivingSeries (aggByKey exampleRowsC4) 0)
      ∧ ((aggregate_data exampleRowsC4).filter (fun r => r.country = 0)).map
            (fun r => r.invoice_date)
          = List.range' (daysMin (survivingSeries (aggByKey exampleRowsC4) 0))
              (daysMax (survivingSeries (aggByKey exampleRowsC4) 0) + 1
                - daysMin (survivingSeries (aggByKey exampleRowsC4) 0))
      ∧ ((aggregate_data exampleRowsC4).map (fun r => (r.country, r.invoice_date))).Nodup :=
  claimC4_day_coverage exampleRowsC4 0 (by decide)
    (of_decide_eq_true (by with_unfolding_all rfl))

/-! ### The series fed to the outlier filter, characterized -/

theorem mem_sortKeys (rows : List (Row ℤ)) (k : ℕ × String × ℤ) :
    k ∈ List.insertionSort keyLe (firstSeen (rows.map rowKey))
      ↔ ∃ r ∈ rows, rowKey r = k := by
  rw [(List.perm_insertionSort _ _).mem_iff, mem_firstSeen, List.mem_map]

theorem nodup_sortKeys (rows : List (Row ℤ)) :
    (List.insertionSort keyLe (firstSeen (rows.map rowKey))).Nodup :=
  ((List.perm_insertionSort _ _).nodup_iff).mpr (nodup_firstSeen _)

/-- The composition of the two groupbys: regrouping the per-(timestamp,
invoice, country) totals of one country by timestamp produces exactly one
entry per distinct timestamp of that country's rows, each carrying the
sum of `total_price` across all of that country's rows at that
timestamp. -/
theorem perTs_eq_direct (rows : List (Row ℤ)) (c : ℤ) :
    perTsSeries (aggByKey rows) c = perTimestampTotals rows c := by
  have hsub : (aggByKey rows).filter (fun e => e.1.2.2 = c)
      = ((List.insertionSort keyLe (firstSeen (rows.map rowKey))).filter
          (fun k => k.2.2 = c)).map
          (fun k => (k, ((rows.filter (fun r => rowKey r = k)).map
            (fun r => r.total_price)).sum)) := by
    simp only [aggByKey]
    rw [filter_of_map]
  have hts : List.insertionSort (fun a b : ℕ => a ≤ b)
        (firstSeen (((aggByKey rows).filter (fun e => e.1.2.2 = c)).map (fun e => e.1.1)))
      = List.insertionSort (fun a b : ℕ => a ≤ b)
        (firstSeen ((rows.filter (fun r => r.country = c)).map (fun r => r.invoice_date))) := by
    have hperm : List.Perm
        (List.insertionSort (fun a b : ℕ => a ≤ b)
          (firstSeen (((aggByKey rows).filter (fun e => e.1.2.2 = c)).map (fun e => e.1.1))))
        (List.insertionSort (fun a b : ℕ => a ≤ b)
          (firstSeen ((rows.filter (fun r => r.country = c)).map (fun r => r.invoice_date)))) := by
      apply (List.perm_ext_iff_of_nodup
        (((List.perm_insertionSort _ _).nodup_iff).mpr (nodup_firstSeen _))
        (((List.perm_insertionSort _ _).nodup_iff).mpr (nodup_firstSeen _))).mpr
      intro t
      rw [(List.perm_insertionSort _ _).mem_iff, (List.perm_insertionSort _ _).mem_iff,
        mem_firstSeen, mem_firstSeen, hsub, List.map_map]
      simp only [List.mem_map, List.mem_filter, mem_sortKeys, decide_eq_true_eq,
        Function.comp_apply]
      constructor
      · rintro ⟨k, ⟨⟨r, hr, rfl⟩, hkc⟩, rfl⟩
        exact ⟨r, ⟨hr, hkc⟩, rfl⟩
      · rintro ⟨r, ⟨hr, hrc⟩, rfl⟩
        exact ⟨rowKey r, ⟨⟨r, hr, rfl⟩, hrc⟩, rfl⟩
    exact List.eq_of_perm_of_sorted hperm
      (List.sorted_insertionSort _ _) (List.sorted_insertionSort _ _)
  simp only [perTsSeries, perTimestampTotals]
  rw [hts]
  apply List.map_congr_left
  intro t ht
  apply congrArg (Prod.mk t)
  have hL : (((aggByKey rows).filter (fun e => e.1.2.2 = c)).filter
        (fun e => e.1.1 = t)).map Prod.snd
      = ((((List.insertionSort keyLe (firstSeen (rows.map rowKey))).filter
          (fun k => k.2.2 = c)).filter (fun k => k.1 = t)).map
          (fun k => ((rows.filter (fun r => rowKey r = k)).map
            (fun r => r.total_price)).sum)) := by
    rw [hsub, filter_of_map, List.map_map]
    rfl
  rw [hL]
  rw [sum_over_groups _
    ((((nodup_sortKeys rows).filter _).filter _)) rows rowKey (fun r => r.total_price)]
  rw [List.filter_filter, List.filter_filter]
  apply congrArg List.sum
  apply congrArg (List.map _)
  apply List.filter_congr
  intro r hr
  apply Bool.eq_iff_iff.mpr
  simp only [decide_eq_true_eq, Bool.and_eq_true, List.mem_filter, mem_sortKeys]
  constructor
  · rintro ⟨-, h1, h2⟩
    exact ⟨h1, h2⟩
  · rintro ⟨h1, h2⟩
    exact ⟨⟨r, hr, rfl⟩, h1, h2⟩

/-- C2 as amended: before the outlier filter runs, totals are re-grouped
by the full `invoice_date` timestamp (date plus time of day), not by
calendar day alone: the series the filter operates on carries exactly one
entry per distinct timestamp among the country's rows — each entry the
sum of `total_price` across all invoices at that timestamp — with no
duplicate timestamp; the collapse to calendar days only happens later,
inside the daily resampling. -/
theorem claimC2_amended (rows : List (Row ℤ)) (c : ℤ) :
    perTsSeries (aggByKey rows) c = perTimestampTotals rows c
      ∧ ((perTsSeries (aggByKey rows) c).map Prod.fst).Nodup := by
  refine ⟨perTs_eq_direct rows c, ?_⟩
  have hfst : (perTsSeries (aggByKey rows) c).map Prod.fst
      = List.insertionSort (fun a b : ℕ => a ≤ b)
          (firstSeen (((aggByKey rows).filter (fun e => e.1.2.2 = c)).map (fun e => e.1.1))) := by
    simp only [perTsSeries, List.map_map]
    exact List.map_id _
  rw [hfst]
  exact ((List.perm_insertionSort _ _).nodup_iff).mpr (nodup_firstSeen _)

/-! ### Claim C10 — only the fixed codes 0, 1, 2 reach the output -/

theorem aggregate_country_congr (agg agg' : List ((ℕ × String × ℤ) × ℚ)) (c : ℤ)
    (h : perTsSeries agg c = perTsSeries agg' c) :
    aggregate_country agg c = aggregate_country agg' c := by
  simp only [aggregate_country, h]

/-- C10: every row of the aggregated output carries a country code in
{0, 1, 2} — the loop iterates over exactly those codes — and rows whose
encoded country code lies outside {0, 1, 2} are silently immaterial: the
aggregate of the data equals the aggregate of the data restricted to
codes 0, 1, 2, with no error path for the dropped rows. -/
theorem claimC10_country_codes (rows : List (Row ℤ)) :
    (∀ r ∈ aggregate_data rows, r.country ∈ ([0, 1, 2] : List ℤ))
      ∧ aggregate_data rows
          = aggregate_data (rows.filter (fun r => r.country ∈ ([0, 1, 2] : List ℤ))) := by
  constructor
  · intro r hr
    simp only [aggregate_data] at hr
    obtain ⟨a, ha, he⟩ := mem_assignIds 0 _ r hr
    have hc : a.country = 0 ∨ a.country = 1 ∨ a.country = 2 := by
      rcases List.mem_append.mp ha with h01 | h2
      · rcases List.mem_append.mp h01 with h0 | h1
        · exact Or.inl (aggregate_country_country _ _ _ h0)
        · exact Or.inr (Or.inl (aggregate_country_country _ _ _ h1))
      · exact Or.inr (Or.inr (aggregate_country_country _ _ _ h2))
    rw [he]
    simpa using hc
  · have hinv : ∀ c : ℤ, c ∈ ([0, 1, 2] : List ℤ) →
        perTsSeries (aggByKey rows) c
          = perTsSeries (aggByKey (rows.filter (fun r => r.country ∈ ([0, 1, 2] : List ℤ)))) c := by
      intro c hc
      rw [perTs_eq_direct, perTs_eq_direct]
      simp only [perTimestampTotals]
      have hsub : (rows.filter (fun r => r.country ∈ ([0, 1, 2] : List ℤ))).filter
            (fun r => r.country = c)
          = rows.filter (fun r => r.country = c) := by
        rw [List.filter_filter]
        apply List.filter_congr
        intro r hrmem
        by_cases h : r.country = c
        · simp [h, hc]
        · simp [h]
      rw [hsub]
    simp only [aggregate_data]
    rw [aggregate_country_congr _ _ 0 (hinv 0 (by decide)),
      aggregate_country_congr _ _ 1 (hinv 1 (by decide)),
      aggregate_country_congr _ _ 2 (hinv 2 (by decide))]

/-- C10 witness: on an input holding codes 0 and 5, the aggregate equals
the aggregate of the rows restricted to codes 0, 1, 2 — the code-5 row
is silently excluded, with no error. -/
theorem claimC10_witness :
    aggregate_data exampleRowsC10
      = aggregate_data (exampleRowsC10.filter (fun r => r.country ∈ ([0, 1, 2] : List ℤ))) :=
  (claimC10_country_codes exampleRowsC10).2

/-! ### Claim C7 — the declared validation contract -/

theorem mem_nonNullValues (c : GEColumn) (x : ℚ) :
    x ∈ nonNullValues c ↔ some x ∈ c.values := by
  simp [nonNullValues, List.mem_filterMap, Option.mem_def]

theorem forall_nonNull_iff (c : GEColumn) (P : ℚ → Prop) :
    (∀ x ∈ nonNullValues c, P x) ↔ ∀ x : ℚ, some x ∈ c.values → P x := by
  constructor
  · intro h x hx
    exact h x ((mem_nonNullValues c x).mpr hx)
  · intro h x hx
    exact h x ((mem_nonNullValues c x).mp hx)

theorem le_foldl_min_iff (cq v : ℚ) (vs : List ℚ) :
    cq ≤ vs.foldl min v ↔ cq ≤ v ∧ ∀ x ∈ vs, cq ≤ x := by
  induction vs generalizing v with
  | nil => simp
  | cons b bs ih =>
    rw [List.foldl_cons, ih, le_min_iff]
    constructor
    · rintro ⟨⟨h1, h2⟩, h3⟩
      refine ⟨h1, fun x hx => ?_⟩
      rcases List.mem_cons.mp hx with rfl | hx'
      · exact h2
      · exact h3 x hx'
    · rintro ⟨h1, h2⟩
      exact ⟨⟨h1, h2 b (List.mem_cons_self _ _)⟩, fun x hx => h2 x (List.mem_cons_of_mem _ hx)⟩

theorem checkNotNull_iff (t : GETable) (colname : String) (c : GEColumn)
    (hfind : findColumn t colname = some c) :
    (checkExpectation t (ExpectationConfiguration.columnValuesNotNull colname) = true)
      ↔ ∀ v ∈ c.values, v.isSome = true := by
  simp only [checkExpectation, hfind, List.all_eq_true]

theorem checkType_iff (t : GETable) (colname : String) (ty : GEDtype) (c : GEColumn)
    (hfind : findColumn t colname = some c) :
    (checkExpectation t (ExpectationConfiguration.columnValuesOfType colname ty) = true)
      ↔ c.dtype = ty := by
  simp only [checkExpectation, hfind, decide_eq_true_eq]

theorem checkDistinct_iff (t : GETable) (colname : String) (vs : List ℚ) (c : GEColumn)
    (hfind : findColumn t colname = some c) :
    (checkExpectation t (ExpectationConfiguration.columnDistinctValuesInSet colname vs) = true)
      ↔ ∀ x ∈ nonNullValues c, x ∈ vs := by
  simp only [checkExpectation, hfind, List.all_eq_true, decide_eq_true_eq]
  constructor
  · intro h x hx
    exact h x ((mem_firstSeen _ x).mpr hx)
  · intro h x hx
    exact h x ((mem_firstSeen _ x).mp hx)

theorem checkMin_iff (t : GETable) (colname : String) (c : GEColumn)
    (hfind : findColumn t colname = some c) :
    (checkExpectation t (ExpectationConfiguration.columnMinBetween colname 0 false) = true)
      ↔ ∀ x ∈ nonNullValues c, (0 : ℚ) ≤ x := by
  simp only [checkExpectation, hfind]
  cases hnn : nonNullValues c with
  | nil => simp [minQ?]
  | cons v vs =>
    simp only [minQ?, Bool.false_eq_true, if_false, decide_eq_true_eq]
    rw [le_foldl_min_iff, List.forall_mem_cons]

theorem table_shape (t : GETable)
    (hcols : t.map (fun c => c.name) = ["id", "invoice_date", "country", "total_price"]) :
    ∃ a b cc d, t = [a, b, cc, d] := by
  cases t with
  | nil => simp at hcols
  | cons a t =>
    cases t with
    | nil => simp at hcols
    | cons b t =>
      cases t with
      | nil => simp at hcols
      | cons cc t =>
        cases t with
        | nil => simp at hcols
        | cons d t =>
          cases t with
          | nil => exact ⟨a, b, cc, d, rfl⟩
          | cons e t => simp at hcols

theorem findColumn_four (a b cc d : GEColumn)
    (hna : a.name = "id") (hnb : b.name = "invoice_date") (hnc : cc.name = "country")
    (hnd : d.name = "total_price") :
    findColumn [a, b, cc, d] "invoice_date" = some b
      ∧ findColumn [a, b, cc, d] "country" = some cc
      ∧ findColumn [a, b, cc, d] "total_price" = some d := by
  refine ⟨?_, ?_, ?_⟩ <;> simp [findColumn, List.find?, hna, hnb, hnc, hnd]

/-- C7: a candidate table passes the declared expectation suite exactly
when it satisfies the contract as the spec words it — 4 columns in the
order id, invoice_date, country, total_price; invoice_date never
missing; country's distinct values inside {0, 1, 2} with dtype int8;
total_price never missing, dtype float64, minimum at least 0 — so the
suite declares these rules and no others. -/
theorem claimC7_suite_contract (t : GETable) : validateSuite t = true ↔ specContract t := by
  constructor
  · intro h
    simp only [validateSuite, build_expectation_suite, List.all_cons, List.all_nil,
      Bool.and_eq_true, and_true] at h
    obtain ⟨h1, h2, h3, h4, h5, h6, h7, h8⟩ := h
    have hcols : t.map (fun c => c.name) = ["id", "invoice_date", "country", "total_price"] := by
      simpa [checkExpectation] using h1
    obtain ⟨a, b, cc, d, rfl⟩ := table_shape t hcols
    simp only [List.map_cons, List.map_nil, List.cons.injEq, and_true] at hcols
    obtain ⟨hna, hnb, hnc, hnd⟩ := hcols
    obtain ⟨hfb, hfc, hfd⟩ := findColumn_four a b cc d hna hnb hnc hnd
    refine ⟨by simp [hna, hnb, hnc, hnd], ?_, ?_, ?_⟩
    · intro col hcol hname
      rcases List.mem_cons.mp hcol with rfl | hcol
      · exact absurd (hna ▸ hname) (by decide)
      rcases List.mem_cons.mp hcol with rfl | hcol
      · exact (checkNotNull_iff _ _ col hfb).mp h3
      rcases List.mem_cons.mp hcol with rfl | hcol
      · exact absurd (hnc ▸ hname) (by decide)
      rcases List.mem_cons.mp hcol with rfl | hcol
      · exact absurd (hnd ▸ hname) (by decide)
      · simp at hcol
    · intro col hcol hname
      rcases List.mem_cons.mp hcol with rfl | hcol
      · exact absurd (hna ▸ hname) (by decide)
      rcases List.mem_cons.mp hcol with rfl | hcol
      · exact absurd (hnb ▸ hname) (by decide)
      rcases List.mem_cons.mp hcol with rfl | hcol
      · refine ⟨(checkType_iff _ _ _ col hfc).mp h5, ?_⟩
        have hd4 := (checkDistinct_iff _ _ _ col hfc).mp h4
        rw [forall_nonNull_iff] at hd4
        intro x hx
        simpa using hd4 x hx
      rcases List.mem_cons.mp hcol with rfl | hcol
      · exact absurd (hnd ▸ hname) (by decide)
      · simp at hcol
    · intro col hcol hname
      rcases List.mem_cons.mp hcol with rfl | hcol
      · exact absurd (hna ▸ hname) (by decide)
      rcases List.mem_cons.mp hcol with rfl | hcol
      · exact absurd (hnb ▸ hname) (by decide)
      rcases List.mem_cons.mp hcol with rfl | hcol
      · exact absurd (hnc ▸ hname) (by decide)
      rcases List.mem_cons.mp hcol with rfl | hcol
      · refine ⟨(checkNotNull_iff _ _ col hfd).mp h8,
          (checkType_iff _ _ _ col hfd).mp h7, ?_⟩
        have hd6 := (checkMin_iff _ _ col hfd).mp h6
        rw [forall_nonNull_iff] at hd6
        exact hd6
      · simp at hcol
  · intro hspec
    obtain ⟨hcols, hdate, hctry, hprice⟩ := hspec
    obtain ⟨a, b, cc, d, rfl⟩ := table_shape t hcols
    simp only [List.map_cons, List.map_nil, List.cons.injEq, and_true] at hcols
    obtain ⟨hna, hnb, hnc, hnd⟩ := hcols
    obtain ⟨hfb, hfc, hfd⟩ := findColumn_four a b cc d hna hnb hnc hnd
    have hb := hdate b (by simp) hnb
    have hc2 := hctry cc (by simp) hnc
    have hd2 := hprice d (by simp) hnd
    simp only [validateSuite, build_expectation_suite, List.all_cons, List.all_nil,
      Bool.and_eq_true, and_true]
    refine ⟨by simp [checkExpectation, hna, hnb, hnc, hnd], by simp [checkExpectation],
      (checkNotNull_iff _ _ b hfb).mpr hb, ?_, (checkType_iff _ _ _ cc hfc).mpr hc2.1,
      ?_, (checkType_iff _ _ _ d hfd).mpr hd2.2.1, (checkNotNull_iff _ _ d hfd).mpr hd2.1⟩
    · apply (checkDistinct_iff _ _ _ cc hfc).mpr
      rw [forall_nonNull_iff]
      intro x hx
      simpa using hc2.2 x hx
    · apply (checkMin_iff _ _ d hfd).mpr
      rw [forall_nonNull_iff]
      exact hd2.2.2
